import Mathlib

/-!
Verification of the crawling pipeline (`crawling.py`): a shallow embedding of
the pure/control content of the source, and theorems settling the spec claims.

Conventions of the embedding:
* Python strings are `List Char` (Unicode code points, as in Python 3).
* Python dicts reached by `.get` chains are association lists; a `.get` with a
  dict default that is then only read is modelled by collapsing the absent /
  non-dict cases into the empty list where the source treats them identically.
* The HTTP world is a script: a list of responses consumed in order.
  `requests.get` raising a timeout is a distinct script entry, because the
  source has no `except` around its request calls.
* Sleeps performed by `backoff_sleep` are returned as a list of the slept
  durations (in seconds), so retry/backoff claims can be stated exactly.
-/

/-! ## Filename sanitization (`sanitize_filename`, crawling.py lines 34-41) -/

/-- The characters of the Python string literal `'<>:"/\\|?*\x00-\x1F'`.
The source iterates over this *string*, so the loop replaces exactly these
twelve literal characters — including the plain hyphen — and not the range
of control characters 0x00..0x1F that the notation suggests. -/
def badChars : List Char := ['<', '>', ':', '"', '/', '\\', '|', '?', '*', '\x00', '-', '\x1F']

/-- `for ch in bad: name = name.replace(ch, "_")`.  Each replacement target is
`'_'`, which is never itself replaced later, so the sequential loop equals a
single pointwise map. -/
def replaceBad (l : List Char) : List Char :=
  l.map (fun c => if c ∈ badChars then '_' else c)

/-- Python `str.isspace` / the separator set of `str.split()` with no
arguments: Unicode whitespace as Python 3 defines it. -/
def pyIsSpace (c : Char) : Bool :=
  c == ' ' || c == '\t' || c == '\n' || c == '\x0b' || c == '\x0c' || c == '\r' ||
  c == '\x1c' || c == '\x1d' || c == '\x1e' || c == '\x1f' ||
  c == '\u0085' || c == '\u00A0' || c == '\u1680' ||
  (decide ('\u2000' ≤ c) && decide (c ≤ '\u200A')) ||
  c == '\u2028' || c == '\u2029' || c == '\u202F' || c == '\u205F' || c == '\u3000'

/-- Worker for `name.split()`: accumulates the current word (reversed) and
emits maximal runs of non-whitespace characters, dropping all whitespace. -/
def pySplitAux : List Char → List Char → List (List Char)
  | [], acc => if acc.isEmpty then [] else [acc.reverse]
  | c :: cs, acc =>
    if pyIsSpace c then
      if acc.isEmpty then pySplitAux cs [] else acc.reverse :: pySplitAux cs []
    else
      pySplitAux cs (c :: acc)

/-- Python `name.split()` (no separator: split on whitespace runs, no empty
pieces, leading/trailing whitespace dropped). -/
def pySplit (l : List Char) : List (List Char) := pySplitAux l []

/-- Python `"_".join(ws)`. -/
def joinU : List (List Char) → List Char
  | [] => []
  | [w] => w
  | w :: x :: ws => w ++ '_' :: joinU (x :: ws)

/-- Python `s.strip("_")`: remove leading and trailing underscores. -/
def stripUnd (l : List Char) : List Char :=
  (((l.dropWhile (fun c => c == '_')).reverse.dropWhile (fun c => c == '_'))).reverse

/-- `sanitize_filename` (crawling.py lines 34-41): empty input gives
`"untitled"`; otherwise replace the characters of the `bad` literal, collapse
whitespace runs via `"_".join(name.split())`, truncate to `max_len`, and strip
leading/trailing underscores.  The repository always calls it with
`max_len = 120`. -/
def sanitize_filename (l : List Char) (max_len : Nat) : List Char :=
  if l.isEmpty then "untitled".toList
  else stripUnd ((joinU (pySplit (replaceBad l))).take max_len)

/-! ## Item descriptors and `pick_best_image` (crawling.py lines 69-90) -/

/-- One image-entry dict as `pick_best_image` reads it: `get("url")` and
`get("width")`.  A present but empty url string is falsy in Python, which is
what `hasUrl` below captures. -/
structure ImgEntry where
  url : Option String
  width : Option Int
deriving DecidableEq

/-- A value sitting in an images map: either a dict (read as `ImgEntry`) or a
non-dict value, which every `isinstance(_, dict)` guard in the source
rejects. -/
inductive ImgVal where
  | d (e : ImgEntry)
  | nd
deriving DecidableEq

/-- An images dict: association list keyed by tier / size name. -/
abbrev ImgMap := List (String × ImgVal)

/-- The fields of a pin that `pick_best_image` inspects.
`mediaImages` is `pin.get("media", {}).get("images", {})`: when `media` is
absent or not a dict the source ends up with the empty dict, collapsed here to
`[]`.  `fallback` is `pin.get("images", {})`: absent or non-dict values make
the guarded fallback branch a no-op, exactly like the empty list. -/
structure Pin where
  mediaImages : ImgMap
  fallback : ImgMap
deriving DecidableEq

/-- Python truthiness of `img.get("url")`: present and non-empty. -/
def ImgEntry.hasUrl (e : ImgEntry) : Bool :=
  match e.url with
  | some s => !s.isEmpty
  | none => false

/-- `images.get(key)` on the association list. -/
def lookupKey (m : ImgMap) (k : String) : Option ImgVal :=
  (m.find? (fun p => p.1 == k)).map (fun p => p.2)

/-- The loop body test of the primary path:
`img = images.get(key); isinstance(img, dict) and img.get("url")`. -/
def tierOk (m : ImgMap) (k : String) : Option ImgEntry :=
  match lookupKey m k with
  | some (ImgVal.d e) => if e.hasUrl then some e else none
  | _ => none

/-- `order = ["orig", "xlarge", "large", "medium", "small"]`. -/
def order : List String := ["orig", "xlarge", "large", "medium", "small"]

/-- `x.get("width") or 0`: an absent width — and a zero width, which is falsy —
both give `0`. -/
def widthKey (e : ImgEntry) : Int := e.width.getD 0

/-- The fallback comprehension
`[v for v in fallback.values() if isinstance(v, dict) and v.get("url")]`. -/
def fallbackCandidates (m : ImgMap) : List ImgEntry :=
  m.filterMap (fun p =>
    match p.2 with
    | ImgVal.d e => if e.hasUrl then some e else none
    | ImgVal.nd => none)

/-- One comparison step of the maximum search: keep the current best on ties
and replace it only on a strictly larger width. -/
def pickF (best x : ImgEntry) : ImgEntry :=
  if widthKey best < widthKey x then x else best

/-- One step of the corresponding maximum-width computation. -/
def maxF (m : Int) (x : ImgEntry) : Int := max m (widthKey x)

/-- `sorted(candidates, key=lambda x: (x.get("width") or 0), reverse=True)[0]`
when the candidate list is non-empty, `None` otherwise.  Python's sort is
stable and `reverse=True` keeps the original order among equal keys, so the
head of the sorted list is the first candidate attaining the maximum width;
the fold keeps the current best on ties, which is exactly that element. -/
def pickMaxFallback : List ImgEntry → Option ImgEntry
  | [] => none
  | e :: es => some (es.foldl pickF e)

/-- `pick_best_image` (crawling.py lines 69-90): first tier of `order` whose
value is a dict with a truthy url; otherwise the widest fallback candidate;
otherwise `None`. -/
def pick_best_image (pin : Pin) : Option ImgEntry :=
  match order.findSome? (fun k => tierOk pin.mediaImages k) with
  | some e => some e
  | none => pickMaxFallback (fallbackCandidates pin.fallback)

/-! ## Retrying request executor (`fetch_pins_page` / `backoff_sleep`,
crawling.py lines 46-67) -/

/-- One scripted network event for a `requests.get` call: an HTTP response
with status and body text, or a network-level timeout exception. -/
inductive Resp where
  | http (status : Nat) (body : String)
  | timeout
deriving DecidableEq

/-- How a call to `fetch_pins_page` ends: returning the 200 body, raising
`RuntimeError` carrying status and body, or letting the unhandled timeout
exception escape. -/
inductive Outcome where
  | ok (body : String)
  | err (status : Nat) (body : String)
  | timeoutExc
deriving DecidableEq

/-- `r.status_code in (429, 500, 502, 503, 504)`. -/
def transientStatus (s : Nat) : Bool :=
  s == 429 || s == 500 || s == 502 || s == 503 || s == 504

/-- `backoff_sleep(retries)`: sleeps `min(60, 2 ** retries)` seconds. -/
def backoffAmount (retries : Nat) : Nat := min 60 (2 ^ retries)

/-- The retry loop of `fetch_pins_page` (crawling.py lines 58-67), run against
a response script, together with the list of slept durations.  A timeout has
no handler in the source, so it ends the call at once with no sleep and no
retry.  `none` means the loop would issue another request beyond the script. -/
def fetch_pins_page : List Resp → Nat → Option (Outcome × List Nat)
  | [], _ => none
  | Resp.timeout :: _, _ => some (Outcome.timeoutExc, [])
  | Resp.http st b :: rest, retries =>
    if st == 200 then some (Outcome.ok b, [])
    else if transientStatus st && decide (retries < 5) then
      (fetch_pins_page rest (retries + 1)).map
        (fun r => (r.1, backoffAmount (retries + 1) :: r.2))
    else some (Outcome.err st b, [])

/-- Convenience: turn a list of (status, body) pairs into script entries. -/
def httpScript (l : List (Nat × String)) : List Resp :=
  l.map (fun q => Resp.http q.1 q.2)

/-- Modelled from the spec: the executor the spec describes in §4.1 / C6,
which "treats a network-level timeout as a transient failure consuming one
retry from the same retry counter".  Identical to `fetch_pins_page` on HTTP
responses; on a timeout it consumes one retry (with backoff) while retries
remain, and fails once the cap of 5 is exhausted.  This definition follows
the spec's words, not the source, and exists only to be compared with
`fetch_pins_page`. -/
def specTimeoutTransientFetch : List Resp → Nat → Option (Outcome × List Nat)
  | [], _ => none
  | Resp.timeout :: rest, retries =>
    if decide (retries < 5) then
      (specTimeoutTransientFetch rest (retries + 1)).map
        (fun r => (r.1, backoffAmount (retries + 1) :: r.2))
    else some (Outcome.timeoutExc, [])
  | Resp.http st b :: rest, retries =>
    if st == 200 then some (Outcome.ok b, [])
    else if transientStatus st && decide (retries < 5) then
      (specTimeoutTransientFetch rest (retries + 1)).map
        (fun r => (r.1, backoffAmount (retries + 1) :: r.2))
    else some (Outcome.err st b, [])

/-! ## Paginator (`main`'s collection loop, crawling.py lines 196-207) -/

/-- One page returned by the source: the `items` array and the optional
`bookmark` continuation token (`None` when the key is absent). -/
structure Page where
  items : List Pin
  bookmark : Option String
deriving DecidableEq

/-- Python truthiness of `bookmark`: present and non-empty. -/
def truthyBookmark : Option String → Bool
  | some s => !s.isEmpty
  | none => false

/-- The loop's continuation test, negation of `if not bookmark or not items: break`. -/
def continuesB (p : Page) : Bool :=
  truthyBookmark p.bookmark && !p.items.isEmpty

/-- The pagination loop of `main` (crawling.py lines 200-207) run against a
script of pages: accumulates `pins.extend(items)` page by page and counts
`total_pages`; stops after the first page whose bookmark is falsy or whose
item list is empty, keeping that page's items.  `none` means the loop would
request a page beyond the script. -/
def paginateAll : List Page → Option (List Pin × Nat)
  | [] => none
  | p :: ps =>
    if continuesB p then
      (paginateAll ps).map (fun r => (p.items ++ r.1, r.2 + 1))
    else some (p.items, 1)

/-! ## Worker pool progress ticks (`Downloader.worker` / `_tick`,
crawling.py lines 121-163) -/

/-- The worker's skip test `if not img or not img.get("url")`.  A dict
returned by `pick_best_image` is non-empty (it holds a truthy url), so
`not img` is exactly "no image was picked". -/
def isSkip (pin : Pin) : Bool :=
  match pick_best_image pin with
  | none => true
  | some e => !e.hasUrl

/-- Number of `_tick()` calls (progress-counter increments) the worker makes
for one real job.  On the skip branch the worker ticks once explicitly and
then `continue` still runs the `finally` block, which ticks again; on the
success and failure paths only the `finally` tick runs.  (The same count
applies to `q.task_done()`, which sits next to each `_tick()`.) -/
def workerTicks (pin : Pin) : Nat :=
  if isSkip pin then 2 else 1

/-- Total progress increments over a run's job list. -/
def totalTicks (pins : List Pin) : Nat :=
  (pins.map workerTicks).sum

/-! ## Orchestrator output (`main`, crawling.py lines 209-216) -/

/-- The status lines `main` prints.  `collected n p` is the line
`"총 {n}개 핀 수집, {p} 페이지."` (it carries only the item and page counts),
`noPins` the empty-board message, and `done` the constant `"✅ 완료!"`. -/
inductive Msg where
  | collected (nPins nPages : Nat)
  | noPins
  | done
deriving DecidableEq

/-- The full message sequence of a run of `main` against a page script:
pagination, then either the empty-board message, or the collected-counts line
followed — after the download phase, whose outcomes influence no output — by
the constant completion line. -/
def mainMessages (pages : List Page) : Option (List Msg) :=
  (paginateAll pages).map
    (fun r => if r.1.isEmpty then [Msg.noPins] else [Msg.collected r.1.length r.2, Msg.done])

/-! ## Shared example inputs -/

/-- A pin with no usable asset anywhere: the worker skips it. -/
def noAssetPin : Pin := Pin.mk [] []

/-- A pin whose `orig` tier carries a url: the worker downloads it. -/
def origPin : Pin := Pin.mk [("orig", ImgVal.d ⟨some "https://img.example/a.jpg", none⟩)] []

/-- Number of jobs of a run the worker classifies as skips. -/
def countSkips (pins : List Pin) : Nat := (pins.filter isSkip).length

/-! ## Claims -/

/-- C1: the claim says the progress counter is incremented exactly once per
terminal job outcome, so a run's total count equals the number of enqueued
real jobs.  The code violates this for the skip outcome: the skip branch
calls `_tick()` and `q.task_done()` and then `continue`, and the `finally`
block still runs, ticking a second time.  A skipped job therefore registers
two increments, and a run of two jobs — one download, one skip — registers
three, not two. -/
theorem C1_skip_double_tick :
    workerTicks noAssetPin = 2 ∧
    totalTicks [origPin, noAssetPin] = 3 ∧
    [origPin, noAssetPin].length = 2 := by decide

/-- C5: the claim says every control character in 0x00-0x1F is replaced by an
underscore and names `<>:"/\|?*` as the only other replaced characters.  The
source iterates over the *string literal* `'<>:"/\\|?*\x00-\x1F'`, so it
replaces only the literal characters `\x00`, `-`, `\x1F`: the control
character `\x01` survives sanitization untouched, while a plain hyphen — not
in the claim's character set — is replaced by an underscore. -/
theorem C5_sanitize_charset_eval :
    sanitize_filename ['\x01'] 120 = ['\x01'] ∧
    sanitize_filename ['a', '-', 'b'] 120 = ['a', '_', 'b'] := by decide

/-- C6 counterexample: the claim says a network-level timeout is consumed as
one transient retry.  On the script "timeout, then 200" the source fails at
once with the escaped timeout exception and performs no backoff sleep,
whereas the executor the spec describes would retry once and return the 200
body. -/
theorem C6_timeout_counterexample :
    fetch_pins_page [Resp.timeout, Resp.http 200 "ok"] 0 = some (Outcome.timeoutExc, []) ∧
    specTimeoutTransientFetch [Resp.timeout, Resp.http 200 "ok"] 0
      = some (Outcome.ok "ok", [backoffAmount 1]) := by decide

/-- C6 amended: `requests.get` raising a timeout is not handled anywhere in
`fetch_pins_page`, so a timeout ends the call immediately — whatever the
current retry counter — consuming no retry and sleeping no backoff. -/
theorem C6_timeout_amended (script : List Resp) (retries : Nat) :
    fetch_pins_page (Resp.timeout :: script) retries = some (Outcome.timeoutExc, []) := rfl

/-- C7 counterexample: sanitization is not idempotent on the code.  The input
`"___"` sanitizes to the empty string (everything is stripped), and
sanitizing the empty string returns `"untitled"`, a different string. -/
theorem C7_idem_counterexample :
    sanitize_filename (sanitize_filename ['_', '_', '_'] 120) 120 ≠
      sanitize_filename ['_', '_', '_'] 120 := by decide

/-- C9 counterexample: the claim says a completed run with a non-empty item
list ends with a summary distinguishing succeeded, skipped and failed counts.
The program's entire output is determined by the item and page counts alone:
two single-page runs whose only pin differs in having an asset (skip tallies
0 versus 1) produce identical output, and the post-run line is the constant
completion message, so no emitted message distinguishes the three counts. -/
theorem C9_summary_counterexample :
    mainMessages [Page.mk [origPin] none] = mainMessages [Page.mk [noAssetPin] none] ∧
    countSkips [origPin] ≠ countSkips [noAssetPin] := by decide

/-- C9 amended: a completed run with a non-empty item list prints the item
and page counts before the download phase and then the fixed completion
message; no succeeded/skipped/failed breakdown is emitted, and the output
does not depend on the download outcomes at all. -/
theorem C9_summary_amended (pages : List Page) (pins : List Pin) (n : Nat)
    (h : paginateAll pages = some (pins, n)) (hne : pins ≠ []) :
    mainMessages pages = some [Msg.collected pins.length n, Msg.done] := by
  cases pins with
  | nil => exact absurd rfl hne
  | cons a t => simp [mainMessages, h]

/-- C9 amended, witness: a one-page run with one downloadable pin prints the
collected-counts line and the completion line. -/
theorem C9_summary_amended_witness :
    mainMessages [Page.mk [origPin] none] = some [Msg.collected 1 1, Msg.done] :=
  C9_summary_amended [Page.mk [origPin] none] [origPin] 1 (by decide) (by decide)

/-- C2: the pagination loop stops exactly at the first page whose bookmark is
falsy or whose item list is empty, and the accumulated result is the
concatenation, in page order, of the items of every page seen up to and
including that terminating page, with the page counter equal to the number of
pages seen. -/
theorem C2_paginator_concat (pre : List Page) (p : Page) (rest : List Page)
    (hpre : ∀ q ∈ pre, continuesB q = true) (hp : continuesB p = false) :
    paginateAll (pre ++ p :: rest) =
      some ((pre.map Page.items).flatten ++ p.items, pre.length + 1) := by
  induction pre with
  | nil => simp [paginateAll, hp]
  | cons q qs ih =>
    have hq : continuesB q = true := hpre q (by simp)
    have hqs : ∀ x ∈ qs, continuesB x = true := fun x hx => hpre x (by simp [hx])
    simp [paginateAll, hq, ih hqs, List.append_assoc]

/-- C2 witness: a two-page script, the first continuing, the second with no
bookmark, accumulates both pages' items in order. -/
theorem C2_paginator_concat_witness :
    paginateAll [Page.mk [origPin] (some "b1"), Page.mk [noAssetPin, origPin] none] =
      some ([origPin, noAssetPin, origPin], 2) := by
  have h := C2_paginator_concat [Page.mk [origPin] (some "b1")]
    (Page.mk [noAssetPin, origPin] none) [] (by decide) (by decide)
  exact h.trans (by decide)

/-- A transient status is never the success status 200. -/
lemma transient_ne_200 {s : Nat} (h : transientStatus s = true) : (s == 200) = false := by
  simp only [transientStatus, Bool.or_eq_true, beq_iff_eq] at h
  rcases h with ((((h | h) | h) | h) | h) <;> subst h <;> rfl
/-- Running the retry loop from retry counter `retries` through a block of
transient responses that fits under the cap and then a 200: it returns the
200 body after one backoff sleep per transient response, at attempt numbers
`retries+1, retries+2, ...`. -/
lemma fetch_ok_after_transients (pre : List (Nat × String)) (b : String) (rest : List Resp) :
    ∀ retries : Nat, pre.length + retries ≤ 5 →
    (∀ q ∈ pre, transientStatus q.1 = true) →
    fetch_pins_page (httpScript pre ++ Resp.http 200 b :: rest) retries =
      some (Outcome.ok b,
        (List.range pre.length).map (fun i => backoffAmount (retries + i + 1))) := by
  induction pre with
  | nil =>
    intro r _ _
    simp [httpScript, fetch_pins_page]
  | cons q qs ih =>
    intro r hlen htr
    have hq : transientStatus q.1 = true := htr q (by simp)
    have hne : (q.1 == 200) = false := transient_ne_200 hq
    have hr5 : r < 5 := by simp only [List.length_cons] at hlen; omega
    have hqs : ∀ x ∈ qs, transientStatus x.1 = true := fun x hx => htr x (by simp [hx])
    have hih := ih (r + 1) (by simp only [List.length_cons] at hlen; omega) hqs
    have hstep : fetch_pins_page (httpScript (q :: qs) ++ Resp.http 200 b :: rest) r =
        (fetch_pins_page (httpScript qs ++ Resp.http 200 b :: rest) (r + 1)).map
          (fun p => (p.1, backoffAmount (r + 1) :: p.2)) := by
      simp [httpScript, fetch_pins_page, hne, hq, hr5]
    rw [hstep, hih]
    simp only [Option.map_some', List.length_cons, Option.some.injEq, Prod.mk.injEq, true_and]
    rw [List.range_succ_eq_map, List.map_cons, List.map_map, List.cons_eq_cons]
    constructor
    · exact congrArg backoffAmount (by omega)
    · apply List.map_congr_left
      intro i _
      exact congrArg backoffAmount (by omega)

/-- C3: the executor retries exactly on the transient statuses
{429, 500, 502, 503, 504}, sleeping `min(60, 2^attempt)` seconds with the
attempt counter starting at 1 and capped at 5 retries.  Part one: any block
of at most five transient responses followed by a 200 yields the 200 body
after exactly one backoff sleep per transient response.  Part two: six
consecutive transient responses exhaust the cap of 5: the call fails with the
sixth response's status and body after the five capped sleeps.  Part three: a
non-transient, non-200 status fails immediately with its status and body and
no sleep. -/
theorem C3_retry_executor :
    (∀ (pre : List (Nat × String)) (b : String) (rest : List Resp),
        pre.length ≤ 5 →
        (∀ q ∈ pre, transientStatus q.1 = true) →
        fetch_pins_page (httpScript pre ++ Resp.http 200 b :: rest) 0 =
          some (Outcome.ok b, (List.range pre.length).map (fun i => backoffAmount (i + 1)))) ∧
    (∀ (t1 t2 t3 t4 t5 t6 : Nat × String) (rest : List Resp),
        (∀ q ∈ [t1, t2, t3, t4, t5, t6], transientStatus q.1 = true) →
        fetch_pins_page (httpScript [t1, t2, t3, t4, t5, t6] ++ rest) 0 =
          some (Outcome.err t6.1 t6.2,
            [backoffAmount 1, backoffAmount 2, backoffAmount 3, backoffAmount 4,
              backoffAmount 5])) ∧
    (∀ (st : Nat) (b : String) (rest : List Resp),
        transientStatus st = false → st ≠ 200 →
        fetch_pins_page (Resp.http st b :: rest) 0 = some (Outcome.err st b, [])) := by
  refine ⟨?_, ?_, ?_⟩
  · intro pre b rest hlen htr
    have h := fetch_ok_after_transients pre b rest 0 (by omega) htr
    simpa using h
  · intro t1 t2 t3 t4 t5 t6 rest htr
    have h1 : transientStatus t1.1 = true := htr t1 (by simp)
    have h2 : transientStatus t2.1 = true := htr t2 (by simp)
    have h3 : transientStatus t3.1 = true := htr t3 (by simp)
    have h4 : transientStatus t4.1 = true := htr t4 (by simp)
    have h5 : transientStatus t5.1 = true := htr t5 (by simp)
    have h6 : transientStatus t6.1 = true := htr t6 (by simp)
    simp [httpScript, fetch_pins_page, h1, h2, h3, h4, h5, h6,
      transient_ne_200 h1, transient_ne_200 h2, transient_ne_200 h3,
      transient_ne_200 h4, transient_ne_200 h5, transient_ne_200 h6]
  · intro st b rest htr hne
    have hne2 : (st == 200) = false := by simp [hne]
    simp [fetch_pins_page, hne2, htr]

/-- C3 witness: the spec's scenario 429, 503, 502 then 200 returns the 200
body after exactly the three sleeps 2, 4, 8 seconds. -/
theorem C3_retry_executor_witness :
    fetch_pins_page (httpScript [(429, "r1"), (503, "r2"), (502, "r3")] ++
        Resp.http 200 "ok" :: []) 0 =
      some (Outcome.ok "ok", [2, 4, 8]) := by
  have h := C3_retry_executor.1 [(429, "r1"), (503, "r2"), (502, "r3")] "ok" []
    (by decide) (by decide)
  exact h.trans (by decide)

/-! ## Variant-selector claims -/

/-- A pin whose `orig` tier lacks a url and whose `large` tier has one:
exercises the priority order strictly below the top tier. -/
def midTierPin : Pin := Pin.mk
  [("orig", ImgVal.d ⟨none, some 1000⟩),
   ("large", ImgVal.d ⟨some "https://img.example/l.jpg", some 200⟩),
   ("small", ImgVal.d ⟨some "https://img.example/s.jpg", some 50⟩)] []

/-- C4: whenever some tier of the tiered images map has a non-empty URL,
`pick_best_image` returns the value of a tier `k` of the priority list such
that every tier before `k` in the list has no usable URL — i.e. the first
tier present with a non-empty URL, never a lower tier when a higher one
qualifies. -/
theorem C4_primary_priority (pin : Pin)
    (h : ∃ k ∈ order, (tierOk pin.mediaImages k).isSome = true) :
    ∃ pre k post, order = pre ++ k :: post ∧
      pick_best_image pin = tierOk pin.mediaImages k ∧
      (tierOk pin.mediaImages k).isSome = true ∧
      ∀ k2 ∈ pre, tierOk pin.mediaImages k2 = none := by
  rcases h1 : tierOk pin.mediaImages "orig" with _ | e1
  case some =>
    refine ⟨[], "orig", ["xlarge", "large", "medium", "small"], rfl, ?_, ?_, ?_⟩
    · simp [pick_best_image, order, List.findSome?_cons, h1]
    · rw [h1]; rfl
    · intro k2 hk2; simp at hk2
  case none =>
  rcases h2 : tierOk pin.mediaImages "xlarge" with _ | e2
  case some =>
    refine ⟨["orig"], "xlarge", ["large", "medium", "small"], rfl, ?_, ?_, ?_⟩
    · simp [pick_best_image, order, List.findSome?_cons, h1, h2]
    · rw [h2]; rfl
    · intro k2 hk2; simp at hk2; subst hk2; exact h1
  case none =>
  rcases h3 : tierOk pin.mediaImages "large" with _ | e3
  case some =>
    refine ⟨["orig", "xlarge"], "large", ["medium", "small"], rfl, ?_, ?_, ?_⟩
    · simp [pick_best_image, order, List.findSome?_cons, h1, h2, h3]
    · rw [h3]; rfl
    · intro k2 hk2
      simp at hk2
      rcases hk2 with rfl | rfl
      · exact h1
      · exact h2
  case none =>
  rcases h4 : tierOk pin.mediaImages "medium" with _ | e4
  case some =>
    refine ⟨["orig", "xlarge", "large"], "medium", ["small"], rfl, ?_, ?_, ?_⟩
    · simp [pick_best_image, order, List.findSome?_cons, h1, h2, h3, h4]
    · rw [h4]; rfl
    · intro k2 hk2
      simp at hk2
      rcases hk2 with rfl | rfl | rfl
      · exact h1
      · exact h2
      · exact h3
  case none =>
  rcases h5 : tierOk pin.mediaImages "small" with _ | e5
  case some =>
    refine ⟨["orig", "xlarge", "large", "medium"], "small", [], rfl, ?_, ?_, ?_⟩
    · simp [pick_best_image, order, List.findSome?_cons, h1, h2, h3, h4, h5]
    · rw [h5]; rfl
    · intro k2 hk2
      simp at hk2
      rcases hk2 with rfl | rfl | rfl | rfl
      · exact h1
      · exact h2
      · exact h3
      · exact h4
  case none =>
    exfalso
    rcases h with ⟨k, hk, hsome⟩
    simp [order] at hk
    rcases hk with rfl | rfl | rfl | rfl | rfl <;> simp_all

/-- C4 witness: on `midTierPin` — `orig` present without url, `large` with
one — the hypothesis holds concretely and the theorem applies. -/
theorem C4_primary_priority_witness :
    ∃ pre k post, order = pre ++ k :: post ∧
      pick_best_image midTierPin = tierOk midTierPin.mediaImages k ∧
      (tierOk midTierPin.mediaImages k).isSome = true ∧
      ∀ k2 ∈ pre, tierOk midTierPin.mediaImages k2 = none :=
  C4_primary_priority midTierPin (by decide)

/-- The width of the running best after one comparison step is the maximum of
the two widths. -/
lemma widthKey_pickF (e x : ImgEntry) : widthKey (pickF e x) = max (widthKey e) (widthKey x) := by
  unfold pickF
  split_ifs with h
  · exact (max_eq_right h.le).symm
  · exact (max_eq_left (not_lt.mp h)).symm

/-- Folding the maximum never goes below its starting value. -/
lemma le_foldl_maxF (t : List ImgEntry) : ∀ m : Int, m ≤ t.foldl maxF m := by
  induction t with
  | nil => intro m; exact le_refl m
  | cons x s ih =>
    intro m
    exact le_trans (le_max_left m (widthKey x)) (ih (max m (widthKey x)))

/-- Skipping a head element that fails the predicate. -/
lemma find?_skip {P : ImgEntry → Bool} {a : ImgEntry} (l : List ImgEntry) (h : P a = false) :
    l.find? P = (a :: l).find? P := by
  simp [List.find?, h]

/-- The tie-keeping strict-maximum fold computes the first element of the
list attaining the maximum width. -/
lemma pickMax_eq_first_max (es : List ImgEntry) : ∀ e : ImgEntry,
    some (es.foldl pickF e) =
      (e :: es).find? (fun y => widthKey y == es.foldl maxF (widthKey e)) := by
  induction es with
  | nil =>
    intro e
    simp [List.find?]
  | cons x t ih =>
    intro e
    have hfold : (x :: t).foldl maxF (widthKey e) = t.foldl maxF (widthKey (pickF e x)) := by
      simp [maxF, widthKey_pickF]
    have hstep : (x :: t).foldl pickF e = t.foldl pickF (pickF e x) := rfl
    rw [hstep, ih (pickF e x), hfold]
    by_cases hlt : widthKey e < widthKey x
    · have hpf : pickF e x = x := by simp [pickF, hlt]
      have hxM : widthKey x ≤ t.foldl maxF (widthKey x) := le_foldl_maxF t _
      rw [hpf]
      have heM : (widthKey e == t.foldl maxF (widthKey x)) = false :=
        beq_eq_false_iff_ne.mpr (ne_of_lt (lt_of_lt_of_le hlt hxM))
      exact find?_skip (x :: t) heM
    · have hpf : pickF e x = e := by simp [pickF, hlt]
      rw [hpf]
      by_cases hPe : (widthKey e == t.foldl maxF (widthKey e)) = true
      · have l1 : (e :: t).find? (fun y => widthKey y == t.foldl maxF (widthKey e)) = some e := by
          simp [List.find?, hPe]
        have l2 : (e :: x :: t).find? (fun y => widthKey y == t.foldl maxF (widthKey e)) = some e := by
          simp [List.find?, hPe]
        rw [l1, l2]
      · have hPe2 : (widthKey e == t.foldl maxF (widthKey e)) = false := by
          revert hPe
          cases widthKey e == t.foldl maxF (widthKey e) <;> simp
        have heM : widthKey e < t.foldl maxF (widthKey e) :=
          lt_of_le_of_ne (le_foldl_maxF t _) (beq_eq_false_iff_ne.mp hPe2)
        have hxe : widthKey x ≤ widthKey e := not_lt.mp hlt
        have hPx : (widthKey x == t.foldl maxF (widthKey e)) = false :=
          beq_eq_false_iff_ne.mpr (ne_of_lt (lt_of_le_of_lt hxe heM))
        have l1 : (e :: t).find? (fun y => widthKey y == t.foldl maxF (widthKey e)) =
            t.find? (fun y => widthKey y == t.foldl maxF (widthKey e)) := by
          simp [List.find?, hPe2]
        have l2 : (e :: x :: t).find? (fun y => widthKey y == t.foldl maxF (widthKey e)) =
            t.find? (fun y => widthKey y == t.foldl maxF (widthKey e)) := by
          simp [List.find?, hPe2, hPx]
        rw [l1, l2]

/-- Modelled from the spec's description of the fallback rule (for
comparison with the source definition, not taken from the source): among the
candidates with a present URL, the chosen entry is the first — in
first-encountered order — whose declared width (absent treated as 0) equals
the maximum width; none when there is no candidate. -/
def specFallbackBest : List ImgEntry → Option ImgEntry
  | [] => none
  | e :: es => (e :: es).find? (fun y => widthKey y == es.foldl maxF (widthKey e))

/-- The source's fallback selection equals the spec's description of it. -/
lemma pickMaxFallback_eq_spec (l : List ImgEntry) : pickMaxFallback l = specFallbackBest l := by
  cases l with
  | nil => rfl
  | cons e es => exact pickMax_eq_first_max es e

/-- C8: for a pin exposing only the fallback flat-map shape, the selector
returns exactly what the spec's fallback rule prescribes: the
first-encountered candidate of maximum declared width among entries with a
present URL (absent widths counting as 0), and none when no entry under
either shape has a URL. -/
theorem C8_fallback_max_width (pin : Pin) (h : pin.mediaImages = []) :
    pick_best_image pin = specFallbackBest (fallbackCandidates pin.fallback) := by
  obtain ⟨mi, fb⟩ := pin
  simp only at h
  subst h
  have hnone : order.findSome? (fun k => tierOk ([] : ImgMap) k) = none := rfl
  simp [pick_best_image, hnone, pickMaxFallback_eq_spec]

/-- A pin with only a fallback map: a 100-wide entry, a non-dict entry, an
800-wide entry and a url-less entry. -/
def fbPin : Pin := Pin.mk []
  [("a", ImgVal.d ⟨some "https://img.example/100.jpg", some 100⟩),
   ("junk", ImgVal.nd),
   ("b", ImgVal.d ⟨some "https://img.example/800.jpg", some 800⟩),
   ("c", ImgVal.d ⟨none, some 9999⟩)]

/-- C8 witness: on `fbPin` the selector picks the 800-wide entry, as the
spec's rule prescribes. -/
theorem C8_fallback_max_width_witness :
    pick_best_image fbPin = specFallbackBest (fallbackCandidates fbPin.fallback) ∧
    pick_best_image fbPin = some ⟨some "https://img.example/800.jpg", some 800⟩ :=
  ⟨C8_fallback_max_width fbPin rfl, by decide⟩

/-- C10: the selector falls through to the fallback map exactly when no tier
of the priority list qualifies — also when the tiered map is present and
non-empty but no named tier has a non-empty URL — and then returns the
fallback selection (possibly an entry rather than none). -/
theorem C10_fallthrough (pin : Pin)
    (h : ∀ k ∈ order, tierOk pin.mediaImages k = none) :
    pick_best_image pin = pickMaxFallback (fallbackCandidates pin.fallback) := by
  have hnone : order.findSome? (fun k => tierOk pin.mediaImages k) = none :=
    List.findSome?_eq_none_iff.mpr h
  simp [pick_best_image, hnone]

/-- A pin whose tiered map is non-empty — `orig` with an empty url, `large`
not a dict, and an unnamed extra key with a url — yet no named tier
qualifies, while the fallback map has a usable entry. -/
def trickyPin : Pin := Pin.mk
  [("orig", ImgVal.d ⟨some "", some 999⟩),
   ("large", ImgVal.nd),
   ("huge", ImgVal.d ⟨some "https://img.example/x.jpg", some 1⟩)]
  [("f", ImgVal.d ⟨some "https://img.example/f.jpg", some 10⟩)]

/-- C10 witness: on `trickyPin` the tiered map is non-empty, the primary path
yields nothing, and the selector returns the fallback entry. -/
theorem C10_fallthrough_witness :
    pick_best_image trickyPin = pickMaxFallback (fallbackCandidates trickyPin.fallback) ∧
    trickyPin.mediaImages ≠ [] ∧
    pick_best_image trickyPin = some ⟨some "https://img.example/f.jpg", some 10⟩ :=
  ⟨C10_fallthrough trickyPin (by decide), by decide, by decide⟩

/-! ## Sanitization idempotence -/

/-- `dropWhile` is idempotent. -/
lemma dropWhile_idem {α : Type} (p : α → Bool) (l : List α) :
    (l.dropWhile p).dropWhile p = l.dropWhile p := by
  induction l with
  | nil => rfl
  | cons a t ih =>
    cases h : p a
    · simp [List.dropWhile_cons, h]
    · simp [List.dropWhile_cons, h, ih]

/-- The head of a non-empty `dropWhile` result fails the predicate. -/
lemma dropWhile_head_false {α : Type} (p : α → Bool) (l : List α) (a : α) (t : List α)
    (h : l.dropWhile p = a :: t) : p a = false := by
  induction l with
  | nil => simp at h
  | cons b s ih =>
    cases hb : p b
    · simp [List.dropWhile_cons, hb] at h
      obtain ⟨h1, _⟩ := h
      subst h1
      exact hb
    · simp [List.dropWhile_cons, hb] at h
      exact ih h

/-- A non-empty `dropWhile` result ends where the input ends. -/
lemma dropWhile_getLast? {α : Type} (p : α → Bool) (l : List α) (hne : l.dropWhile p ≠ []) :
    (l.dropWhile p).getLast? = l.getLast? := by
  induction l with
  | nil => exact absurd rfl hne
  | cons b s ih =>
    cases hb : p b
    · simp [List.dropWhile_cons, hb]
    · have h1 : (b :: s).dropWhile p = s.dropWhile p := by simp [List.dropWhile_cons, hb]
      rw [h1] at hne ⊢
      rw [ih hne]
      have hs : s ≠ [] := by
        intro hs0
        subst hs0
        exact hne rfl
      cases s with
      | nil => exact absurd rfl hs
      | cons c u => exact (List.getLast?_cons_cons).symm

/-- Stripping underscores from both ends is idempotent. -/
lemma stripUnd_idem (l : List Char) : stripUnd (stripUnd l) = stripUnd l := by
  cases hv : (l.dropWhile (fun c => c == '_')).reverse.dropWhile (fun c => c == '_') with
  | nil =>
    have h0 : stripUnd l = [] := by simp [stripUnd, hv]
    rw [h0]
    rfl
  | cons a t =>
    have hstrip : stripUnd l = (a :: t).reverse := by simp [stripUnd, hv]
    cases hu : l.dropWhile (fun c => c == '_') with
    | nil =>
      rw [hu] at hv
      simp at hv
    | cons b s =>
      have hpb : (b == '_') = false := dropWhile_head_false _ l b s hu
      have hvne : (l.dropWhile (fun c => c == '_')).reverse.dropWhile (fun c => c == '_') ≠ [] := by
        rw [hv]
        simp
      have hlast := dropWhile_getLast? (fun c => c == '_')
        (l.dropWhile (fun c => c == '_')).reverse hvne
      rw [hv, hu, List.getLast?_reverse] at hlast
      have hhead : ((a :: t).reverse).head? = some b := by
        rw [List.head?_reverse, hlast]
        rfl
      have hdw : ((a :: t).reverse).dropWhile (fun c => c == '_') = (a :: t).reverse := by
        cases hr : (a :: t).reverse with
        | nil => rfl
        | cons c w =>
          rw [hr] at hhead
          simp at hhead
          subst hhead
          simp [List.dropWhile_cons, hpb]
      have hidem : (a :: t).dropWhile (fun c => c == '_') = a :: t := by
        rw [← hv, dropWhile_idem]
      rw [hstrip]
      show stripUnd ((a :: t).reverse) = (a :: t).reverse
      unfold stripUnd
      rw [hdw, List.reverse_reverse, hidem]

/-- Stripping never lengthens a string. -/
lemma stripUnd_length_le (l : List Char) : (stripUnd l).length ≤ l.length := by
  unfold stripUnd
  rw [List.length_reverse]
  refine le_trans ((List.dropWhile_sublist _).length_le) ?_
  rw [List.length_reverse]
  exact (List.dropWhile_sublist _).length_le

/-- Stripped characters come from the input. -/
lemma stripUnd_subset {l : List Char} {c : Char} (hc : c ∈ stripUnd l) : c ∈ l := by
  unfold stripUnd at hc
  have h1 := List.mem_reverse.mp hc
  have h2 := List.dropWhile_subset _ h1
  have h3 := List.mem_reverse.mp h2
  exact List.dropWhile_subset _ h3

/-- Characters surviving the bad-character replacement are not bad. -/
lemma mem_replaceBad_not_bad {l : List Char} {c : Char} (h : c ∈ replaceBad l) :
    c ∉ badChars := by
  rcases List.mem_map.mp h with ⟨x, hx, hfx⟩
  by_cases hb : x ∈ badChars
  · rw [if_pos hb] at hfx
    rw [← hfx]
    decide
  · rw [if_neg hb] at hfx
    rw [← hfx]
    exact hb

/-- Every character of every word produced by the splitter is a
non-whitespace character of the input, or comes from the accumulator. -/
lemma pySplitAux_chars : ∀ (l acc : List Char), ∀ w ∈ pySplitAux l acc, ∀ c ∈ w,
    (c ∈ l ∧ pyIsSpace c = false) ∨ c ∈ acc := by
  intro l
  induction l with
  | nil =>
    intro acc w hw c hcw
    by_cases ha : acc.isEmpty
    · simp [pySplitAux, ha] at hw
    · simp [pySplitAux, ha] at hw
      subst hw
      exact Or.inr (List.mem_reverse.mp hcw)
  | cons d ds ih =>
    intro acc w hw c hcw
    cases hsp : pyIsSpace d
    · have hw2 : w ∈ pySplitAux ds (d :: acc) := by
        simpa [pySplitAux, hsp] using hw
      rcases ih (d :: acc) w hw2 c hcw with ⟨hcl, hs⟩ | hacc
      · exact Or.inl ⟨List.mem_cons_of_mem d hcl, hs⟩
      · rcases List.mem_cons.mp hacc with rfl | h2
        · exact Or.inl ⟨List.mem_cons_self _ _, hsp⟩
        · exact Or.inr h2
    · by_cases ha : acc.isEmpty
      · have hw2 : w ∈ pySplitAux ds [] := by
          simpa [pySplitAux, hsp, ha] using hw
        rcases ih [] w hw2 c hcw with ⟨hcl, hs⟩ | hacc
        · exact Or.inl ⟨List.mem_cons_of_mem d hcl, hs⟩
        · exact (List.not_mem_nil c hacc).elim
      · have hw2 : w = acc.reverse ∨ w ∈ pySplitAux ds [] := by
          simpa [pySplitAux, hsp, ha] using hw
        rcases hw2 with rfl | hw3
        · exact Or.inr (List.mem_reverse.mp hcw)
        · rcases ih [] w hw3 c hcw with ⟨hcl, hs⟩ | hacc
          · exact Or.inl ⟨List.mem_cons_of_mem d hcl, hs⟩
          · exact (List.not_mem_nil c hacc).elim

/-- Every character of a join is an underscore or comes from some word. -/
lemma joinU_mem : ∀ (ws : List (List Char)) (c : Char), c ∈ joinU ws →
    c = '_' ∨ ∃ w ∈ ws, c ∈ w := by
  intro ws
  induction ws with
  | nil =>
    intro c hc
    simp [joinU] at hc
  | cons w ws ih =>
    intro c hc
    cases ws with
    | nil =>
      right
      exact ⟨w, List.mem_cons_self w [], by simpa [joinU] using hc⟩
    | cons x t =>
      rw [show joinU (w :: x :: t) = w ++ '_' :: joinU (x :: t) from rfl] at hc
      rcases List.mem_append.mp hc with h1 | h2
      · exact Or.inr ⟨w, List.mem_cons_self _ _, h1⟩
      · rcases List.mem_cons.mp h2 with rfl | h3
        · exact Or.inl rfl
        · rcases ih c h3 with h4 | ⟨w2, hw2, hcw2⟩
          · exact Or.inl h4
          · exact Or.inr ⟨w2, List.mem_cons_of_mem w hw2, hcw2⟩

/-- Every character of a sanitized non-empty name is neither a replaced
character nor whitespace. -/
lemma sanitized_chars (l : List Char) (m : Nat) :
    ∀ c ∈ stripUnd ((joinU (pySplit (replaceBad l))).take m),
      c ∉ badChars ∧ pyIsSpace c = false := by
  intro c hc
  have hc1 : c ∈ (joinU (pySplit (replaceBad l))).take m := stripUnd_subset hc
  have hc2 : c ∈ joinU (pySplit (replaceBad l)) := List.mem_of_mem_take hc1
  rcases joinU_mem _ c hc2 with rfl | ⟨w, hw, hcw⟩
  · exact ⟨by decide, by decide⟩
  · rcases pySplitAux_chars (replaceBad l) [] w hw c hcw with ⟨hcl, hsp⟩ | hacc
    · exact ⟨mem_replaceBad_not_bad hcl, hsp⟩
    · exact (List.not_mem_nil c hacc).elim

/-- Splitting a non-empty whitespace-free string with a non-empty accumulator
yields the single word made of the accumulator and the string. -/
lemma splitAux_no_space : ∀ (l acc : List Char), acc ≠ [] →
    (∀ c ∈ l, pyIsSpace c = false) → pySplitAux l acc = [acc.reverse ++ l] := by
  intro l
  induction l with
  | nil =>
    intro acc hacc _
    have h0 : acc.isEmpty = false := by
      revert hacc
      cases acc <;> simp
    simp [pySplitAux, h0]
  | cons d ds ih =>
    intro acc hacc hsp
    have hd : pyIsSpace d = false := hsp d (List.mem_cons_self d ds)
    have hds : ∀ c ∈ ds, pyIsSpace c = false := fun c hc => hsp c (List.mem_cons_of_mem d hc)
    have hrec := ih (d :: acc) (by simp) hds
    simp [pySplitAux, hd, hrec]

/-- Splitting a non-empty whitespace-free string yields the string itself as
the single word. -/
lemma pySplit_no_space (l : List Char) (hne : l ≠ [])
    (hsp : ∀ c ∈ l, pyIsSpace c = false) : pySplit l = [l] := by
  cases l with
  | nil => exact absurd rfl hne
  | cons d ds =>
    have hd : pyIsSpace d = false := hsp d (List.mem_cons_self d ds)
    have hds : ∀ c ∈ ds, pyIsSpace c = false := fun c hc => hsp c (List.mem_cons_of_mem d hc)
    have hrec := splitAux_no_space ds [d] (by simp) hds
    simp [pySplit, pySplitAux, hd, hrec]

/-- Replacing bad characters in a string that has none is the identity. -/
lemma replaceBad_eq_self (l : List Char) (h : ∀ c ∈ l, c ∉ badChars) :
    replaceBad l = l := by
  unfold replaceBad
  calc l.map (fun c => if c ∈ badChars then '_' else c)
      = l.map id := List.map_congr_left (fun c hc => if_neg (h c hc))
    _ = l := List.map_id l

/-- A non-empty string without bad characters or whitespace, of length at
most 120 and already underscore-stripped, is a fixed point of sanitization. -/
lemma sanitize_fixed (r : List Char) (hne : r ≠ [])
    (hbad : ∀ c ∈ r, c ∉ badChars) (hsp : ∀ c ∈ r, pyIsSpace c = false)
    (hlen : r.length ≤ 120) (hstrip : stripUnd r = r) :
    sanitize_filename r 120 = r := by
  have hre : r.isEmpty = false := by
    revert hne
    cases r <;> simp
  simp only [sanitize_filename, hre, Bool.false_eq_true, if_false]
  rw [replaceBad_eq_self r hbad, pySplit_no_space r hne hsp]
  rw [show joinU [r] = r from rfl, List.take_of_length_le hlen, hstrip]

/-- C7 amended: sanitization is idempotent on every input whose sanitized
form is non-empty (the code maps an empty sanitized form to `"untitled"` on
the second pass, which is the only source of non-idempotence). -/
theorem C7_idempotent_amended (l : List Char) (h : sanitize_filename l 120 ≠ []) :
    sanitize_filename (sanitize_filename l 120) 120 = sanitize_filename l 120 := by
  cases l with
  | nil => decide
  | cons d ds =>
    have hrdef : sanitize_filename (d :: ds) 120 =
        stripUnd ((joinU (pySplit (replaceBad (d :: ds)))).take 120) := by
      simp [sanitize_filename]
    rw [hrdef] at h ⊢
    have hchars := sanitized_chars (d :: ds) 120
    refine sanitize_fixed _ h (fun c hc => (hchars c hc).1) (fun c hc => (hchars c hc).2)
      ?_ (stripUnd_idem _)
    exact le_trans (stripUnd_length_le _) (List.length_take_le 120 _)

/-- C7 amended, witness: `"a b"` sanitizes to the non-empty `"a_b"`, and
sanitizing again returns it unchanged. -/
theorem C7_idempotent_amended_witness :
    sanitize_filename (sanitize_filename ['a', ' ', 'b'] 120) 120 =
      sanitize_filename ['a', ' ', 'b'] 120 :=
  C7_idempotent_amended ['a', ' ', 'b'] (by decide)
